import Mathlib

/-!
Verification of the word-substitution text codec in `src/main.py`
(`compress_file` / `decompress_file`).

Text is embedded as `List Char` (a Python `str` is a sequence of code
points).  The pure core of `compress_file` (src/main.py lines 30-61) is
the map from the file's text and extension to the record
`{"extension": ..., "words": ..., "data": ...}`; the pure core of
`decompress_file` (lines 97-114) is the map from a parsed record to the
restored text together with the extension.  File and console I/O, which
the functions perform around this core, is out of scope.
-/

namespace FileCompressor

/-- A token: a maximal non-whitespace run or whitespace run of the text. -/
abbrev Token := List Char

/-- The whitespace test used by Python's `re` module for `\s` on `str`
(`Py_UNICODE_ISSPACE`): space, `\t\n\v\f\r`, `\x1c`-`\x1f`, NEL, NBSP,
and the Unicode space separators. -/
def isPySpace (c : Char) : Bool :=
  let n := c.toNat
  n == 32 || (9 ≤ n && n ≤ 13) || (28 ≤ n && n ≤ 31) ||
    n == 0x85 || n == 0xA0 || n == 0x1680 ||
    (0x2000 ≤ n && n ≤ 0x200A) ||
    n == 0x2028 || n == 0x2029 || n == 0x202F || n == 0x205F || n == 0x3000

/-- One step of the alternating split: prepend character `c` to the token
list of the remaining text.  The list always alternates
non-whitespace run, whitespace run, non-whitespace run, ...; a
whitespace `c` either extends the adjacent whitespace run or opens a new
one preceded by an empty non-whitespace run. -/
def consChar (c : Char) (ts : List Token) : List Token :=
  match ts, isPySpace c with
  | s0 :: rest, false => (c :: s0) :: rest
  | [] :: sp :: rest, true => [] :: (c :: sp) :: rest
  | s0 :: rest, true => [] :: [c] :: s0 :: rest
  | [], _ => [[c]]

/-- Models `re.split(r"(\s+)", text)` (src/main.py line 30): split `text`
at maximal whitespace runs, keeping the runs (the capture group), so the
result alternates (possibly empty) non-whitespace segments with the
whitespace separators; `re.split` on the empty string yields `[""]`. -/
def tokenize : List Char → List Token
  | [] => [[]]
  | c :: cs => consChar c (tokenize cs)

/-- The keys of the Python `frequency` dict (src/main.py lines 33-35) in
insertion order: each distinct token value, ordered by first occurrence. -/
def freqKeys (toks : List Token) : List Token :=
  toks.foldl (fun acc t => if t ∈ acc then acc else acc ++ [t]) []

/-- The sort key order of `sorted(frequency.keys(), key=lambda x:
(-frequency[x], len(x)))` (src/main.py line 38): `x` may precede `y` iff
`x` has strictly higher frequency, or equal frequency and no greater
length.  `frequency[x]` is the occurrence count of `x` in the token
list. -/
def tokLE (toks : List Token) (x y : Token) : Prop :=
  List.count y toks < List.count x toks ∨
    (List.count x toks = List.count y toks ∧ x.length ≤ y.length)

instance (toks : List Token) : DecidableRel (tokLE toks) := fun x y => by
  unfold tokLE; exact inferInstance

/-- `sorted_tokens` (src/main.py line 38): the distinct tokens sorted by
`(-frequency, length)`.  Python's `sorted` is a stable sort over the dict
keys in insertion order; any stable sort by the same key produces the
same list, and `List.insertionSort` with the non-strict key order
`tokLE` is such a stable sort. -/
def sorted_tokens (toks : List Token) : List Token :=
  List.insertionSort (tokLE toks) (freqKeys toks)

/-- The inclusion predicate `frequency[token] > 1 or len(token) > 3`
(src/main.py line 44). -/
def qualifies (toks : List Token) (t : Token) : Bool :=
  decide (1 < List.count t toks) || decide (3 < t.length)

/-- The loop `for i, token in enumerate(sorted_tokens): if ...:
word_dict[token] = i + 1` (src/main.py lines 42-45), with the qualifying
test abstracted as `q`: walk the ranked list with a counter and record
`(token, rank + 1)` for the tokens passing `q`. -/
def assignIds (q : Token → Bool) : List Token → Nat → List (Token × Nat)
  | [], _ => []
  | t :: ts, i =>
    if q t then (t, i + 1) :: assignIds q ts (i + 1) else assignIds q ts (i + 1)

/-- `word_dict` (src/main.py lines 41-45) as an association list in key
insertion order. -/
def word_dict (toks : List Token) : List (Token × Nat) :=
  assignIds (qualifies toks) (sorted_tokens toks) 0

/-- Key lookup in an association list (Python dict `in` test and
subscript, src/main.py lines 50-51; dict keys are unique, so first
match equals the dict entry). -/
def lookupTok : List (Token × Nat) → Token → Option Nat
  | [], _ => none
  | p :: ps, t => if p.1 = t then some p.2 else lookupTok ps t

/-- One entry of the `data` array: an integer identifier or a literal
token string.  Python distinguishes the two at decode time with
`isinstance(item, int)`; ids and strings are disjoint runtime types, so
the tagged sum is the faithful embedding. -/
inductive DataEntry where
  | id (n : Nat)
  | lit (s : Token)
deriving DecidableEq

/-- The body of the data-building loop (src/main.py lines 49-54): emit
the identifier when the token is a `word_dict` key, else the literal. -/
def encEntry (ws : List (Token × Nat)) (t : Token) : DataEntry :=
  match lookupTok ws t with
  | some i => DataEntry.id i
  | none => DataEntry.lit t

/-- `data_ids` (src/main.py lines 48-54): one entry per token, in token
order. -/
def data_ids (toks : List Token) : List DataEntry :=
  toks.map (encEntry (word_dict toks))

/-- The record `compressed_data` (src/main.py lines 57-61).  `extension`
is optional because a parsed JSON object handed to decode may lack the
field (`data.get("extension", ".txt")`, line 99); encode always sets it. -/
structure CompressedData where
  extension : Option (List Char)
  words : List (Token × Nat)
  data : List DataEntry
deriving DecidableEq

/-- The pure core of `compress_file` (src/main.py lines 30-61): tokenize
the text, rank, build `word_dict` and `data`, and package the record.
The size-comparison advisory (lines 63-80) prints but never alters the
record. -/
def compress_file (text extension : List Char) : CompressedData :=
  { extension := some extension
    words := word_dict (tokenize text)
    data := data_ids (tokenize text) }

/-- The decode failure: `id_to_word[item]` raising `KeyError` on an
identifier absent from the reverse dictionary (src/main.py line 109),
surfaced by the spec as the malformed-record / unknown-identifier
error. -/
inductive DecodeError where
  | keyError (i : Nat)
deriving DecidableEq

/-- The reverse mapping `{v: k for k, v in words.items()}` followed by
subscripting (src/main.py lines 102, 109): scanning the items in order,
a later binding of the same identifier overwrites an earlier one, so the
lookup returns the key of the last pair carrying value `i`. -/
def id_to_word (ws : List (Token × Nat)) (i : Nat) : Option Token :=
  ws.foldl (fun acc kv => if kv.2 = i then some kv.1 else acc) none

/-- The restore loop (src/main.py lines 105-112): resolve each entry in
order, an integer through the reverse dictionary (`KeyError` aborts the
whole decode), a literal verbatim. -/
def restoreTokens (ws : List (Token × Nat)) : List DataEntry → Except DecodeError (List Token)
  | [] => Except.ok []
  | DataEntry.id i :: rest =>
    match id_to_word ws i with
    | none => Except.error (DecodeError.keyError i)
    | some w =>
      match restoreTokens ws rest with
      | Except.ok ts => Except.ok (w :: ts)
      | Except.error e => Except.error e
  | DataEntry.lit s :: rest =>
    match restoreTokens ws rest with
    | Except.ok ts => Except.ok (s :: ts)
    | Except.error e => Except.error e

/-- The default of `data.get("extension", ".txt")` (src/main.py line 99). -/
def defaultExtension : List Char := ".txt".toList

/-- The pure core of `decompress_file` (src/main.py lines 97-114): build
the reverse dictionary, resolve the data entries in order, join them,
and return the restored text with the stored (or defaulted) extension. -/
def decompress_file (r : CompressedData) : Except DecodeError (List Char × List Char) :=
  match restoreTokens r.words r.data with
  | Except.ok ts => Except.ok (ts.flatten, r.extension.getD defaultExtension)
  | Except.error e => Except.error e

/-- All identifier values of a `words` association list are pairwise
distinct. -/
def distinctIds (ws : List (Token × Nat)) : Prop :=
  ws.Pairwise (fun a b => a.2 ≠ b.2)

/-! ### Tokenizer lemmas -/

theorem flatten_consChar (c : Char) (ts : List Token) :
    (consChar c ts).flatten = c :: ts.flatten := by
  unfold consChar
  split <;> simp

theorem tokenize_flatten (s : List Char) : (tokenize s).flatten = s := by
  induction s with
  | nil => rfl
  | cons c cs ih => simp [tokenize, flatten_consChar, ih]

/-! ### freqKeys lemmas -/

theorem mem_foldl_insertOnce (toks : List Token) :
    ∀ (acc : List Token) (x : Token),
      (x ∈ toks.foldl (fun acc t => if t ∈ acc then acc else acc ++ [t]) acc) ↔
        x ∈ acc ∨ x ∈ toks := by
  induction toks with
  | nil => intro acc x; simp
  | cons t ts ih =>
    intro acc x
    simp only [List.foldl_cons]
    rw [ih]
    by_cases ht : t ∈ acc
    · have hxt : x = t → x ∈ acc := fun h => h ▸ ht
      simp only [ht, if_true, List.mem_cons]
      tauto
    · simp only [ht, if_false, List.mem_append, List.mem_singleton, List.mem_cons]
      tauto

theorem mem_freqKeys (toks : List Token) (x : Token) : x ∈ freqKeys toks ↔ x ∈ toks := by
  unfold freqKeys
  rw [mem_foldl_insertOnce]
  simp

theorem nodup_foldl_insertOnce (toks : List Token) :
    ∀ acc : List Token, acc.Nodup →
      (toks.foldl (fun acc t => if t ∈ acc then acc else acc ++ [t]) acc).Nodup := by
  induction toks with
  | nil => intro acc h; simpa using h
  | cons t ts ih =>
    intro acc h
    simp only [List.foldl_cons]
    apply ih
    by_cases ht : t ∈ acc
    · simpa [ht] using h
    · simp only [ht, if_false]
      rw [List.nodup_append]
      exact ⟨h, List.nodup_singleton t,
        fun a ha hat => ht ((List.mem_singleton.mp hat) ▸ ha)⟩

theorem freqKeys_nodup (toks : List Token) : (freqKeys toks).Nodup :=
  nodup_foldl_insertOnce toks [] List.nodup_nil

/-! ### sorted_tokens lemmas -/

theorem sorted_tokens_perm (toks : List Token) :
    List.Perm (sorted_tokens toks) (freqKeys toks) :=
  List.perm_insertionSort _ _

theorem mem_sorted_tokens (toks : List Token) (x : Token) :
    x ∈ sorted_tokens toks ↔ x ∈ toks := by
  rw [(sorted_tokens_perm toks).mem_iff, mem_freqKeys]

theorem sorted_tokens_nodup (toks : List Token) : (sorted_tokens toks).Nodup :=
  ((sorted_tokens_perm toks).nodup_iff).mpr (freqKeys_nodup toks)

theorem sorted_tokens_length (toks : List Token) :
    (sorted_tokens toks).length = (freqKeys toks).length :=
  (sorted_tokens_perm toks).length_eq

/-! ### assignIds lemmas -/

theorem assignIds_mem_lt (q : Token → Bool) {p : Token × Nat} :
    ∀ (ts : List Token) (n : Nat), p ∈ assignIds q ts n → n < p.2 := by
  intro ts
  induction ts with
  | nil => intro n h; cases h
  | cons t ts ih =>
    intro n h
    unfold assignIds at h
    by_cases hq : q t = true
    · rw [if_pos hq] at h
      rcases List.mem_cons.mp h with h | h
      · rw [h]; exact Nat.lt_succ_self n
      · exact Nat.lt_of_succ_lt (ih (n + 1) h)
    · rw [if_neg hq] at h
      exact Nat.lt_of_succ_lt (ih (n + 1) h)

theorem assignIds_mem_le (q : Token → Bool) {p : Token × Nat} :
    ∀ (ts : List Token) (n : Nat), p ∈ assignIds q ts n → p.2 ≤ n + ts.length := by
  intro ts
  induction ts with
  | nil => intro n h; cases h
  | cons t ts ih =>
    intro n h
    unfold assignIds at h
    by_cases hq : q t = true
    · rw [if_pos hq] at h
      rcases List.mem_cons.mp h with h | h
      · rw [h]; simp [List.length_cons]
      · have := ih (n + 1) h; simp [List.length_cons]; omega
    · rw [if_neg hq] at h
      have := ih (n + 1) h; simp [List.length_cons]; omega

theorem assignIds_key_mem (q : Token → Bool) {p : Token × Nat} :
    ∀ (ts : List Token) (n : Nat), p ∈ assignIds q ts n → p.1 ∈ ts := by
  intro ts
  induction ts with
  | nil => intro n h; cases h
  | cons t ts ih =>
    intro n h
    unfold assignIds at h
    by_cases hq : q t = true
    · rw [if_pos hq] at h
      rcases List.mem_cons.mp h with h | h
      · rw [h]; exact List.mem_cons_self t ts
      · exact List.mem_cons_of_mem t (ih (n + 1) h)
    · rw [if_neg hq] at h
      exact List.mem_cons_of_mem t (ih (n + 1) h)

theorem assignIds_pairwise (q : Token → Bool) :
    ∀ (ts : List Token) (n : Nat),
      (assignIds q ts n).Pairwise (fun a b => a.2 < b.2) := by
  intro ts
  induction ts with
  | nil => intro n; exact List.Pairwise.nil
  | cons t ts ih =>
    intro n
    unfold assignIds
    by_cases hq : q t = true
    · rw [if_pos hq]
      refine List.Pairwise.cons ?_ (ih (n + 1))
      intro p hp
      exact assignIds_mem_lt q ts (n + 1) hp
    · rw [if_neg hq]; exact ih (n + 1)

/-! ### lookupTok lemmas -/

theorem lookupTok_cons_self {s : Token} {n : Nat} {ps : List (Token × Nat)} :
    lookupTok ((s, n) :: ps) s = some n := by
  unfold lookupTok; rw [if_pos rfl]

theorem lookupTok_cons_ne {p : Token × Nat} {ps : List (Token × Nat)} {t : Token}
    (h : ¬(p.1 = t)) : lookupTok (p :: ps) t = lookupTok ps t := by
  show (if p.1 = t then some p.2 else lookupTok ps t) = lookupTok ps t
  rw [if_neg h]

theorem lookupTok_mem {t : Token} {i : Nat} :
    ∀ {ws : List (Token × Nat)}, lookupTok ws t = some i → (t, i) ∈ ws := by
  intro ws
  induction ws with
  | nil => intro h; cases h
  | cons p ps ih =>
    intro h
    unfold lookupTok at h
    by_cases hp : p.1 = t
    · rw [if_pos hp] at h
      have h2 : p.2 = i := by injection h
      exact List.mem_cons.mpr (Or.inl (by rw [← hp, ← h2]))
    · rw [if_neg hp] at h
      exact List.mem_cons_of_mem p (ih h)

theorem lookupTok_assignIds_isSome (q : Token → Bool) (t : Token) :
    ∀ (ts : List Token) (n : Nat),
      (lookupTok (assignIds q ts n) t).isSome = true ↔ (t ∈ ts ∧ q t = true) := by
  intro ts
  induction ts with
  | nil => intro n; simp [assignIds, lookupTok]
  | cons a ts ih =>
    intro n
    unfold assignIds
    by_cases hq : q a = true
    · rw [if_pos hq]
      by_cases hat : a = t
      · subst hat
        rw [lookupTok_cons_self]
        simp [hq]
      · rw [lookupTok_cons_ne hat, ih (n + 1)]
        have hta : ¬(t = a) := fun h => hat h.symm
        simp only [List.mem_cons]
        tauto
    · rw [if_neg hq, ih (n + 1)]
      constructor
      · rintro ⟨h1, h2⟩
        exact ⟨List.mem_cons_of_mem a h1, h2⟩
      · rintro ⟨h1, h2⟩
        rcases List.mem_cons.mp h1 with h1 | h1
        · exact absurd (h1 ▸ h2) hq
        · exact ⟨h1, h2⟩

theorem pairwise_val_unique :
    ∀ (ws : List (Token × Nat)), ws.Pairwise (fun a b => a.2 < b.2) →
      ∀ (t : Token) (i : Nat), (t, i) ∈ ws →
        ∀ p ∈ ws, p.2 = i → p.1 = t := by
  intro ws
  induction ws with
  | nil => intro _ t i hmem; cases hmem
  | cons a ws ih =>
    intro hpw t i hmem p hp hpi
    rcases List.pairwise_cons.mp hpw with ⟨ha, hpw'⟩
    rcases List.mem_cons.mp hmem with hm | hm <;> rcases List.mem_cons.mp hp with hp' | hp'
    · rw [hp', ← hm]
    · exfalso
      have h1 := ha p hp'
      rw [← hm] at h1
      simp only at h1
      omega
    · exfalso
      have h1 := ha (t, i) hm
      rw [hp'] at hpi
      simp only at h1
      omega
    · exact ih hpw' t i hm p hp' hpi

/-! ### id_to_word lemmas -/

theorem foldl_overwrite_skip (i : Nat) :
    ∀ (ws : List (Token × Nat)) (acc : Option Token),
      (∀ p ∈ ws, p.2 ≠ i) →
      ws.foldl (fun acc kv => if kv.2 = i then some kv.1 else acc) acc = acc := by
  intro ws
  induction ws with
  | nil => intro acc _; rfl
  | cons kv ws ih =>
    intro acc hne
    simp only [List.foldl_cons]
    rw [if_neg (hne kv (List.mem_cons_self kv ws))]
    exact ih acc (fun p hp => hne p (List.mem_cons_of_mem kv hp))

theorem foldl_overwrite_last (i : Nat) (t : Token) :
    ∀ (ws : List (Token × Nat)) (acc : Option Token),
      ((t, i) ∈ ws ∨ acc = some t) →
      (∀ p ∈ ws, p.2 = i → p.1 = t) →
      ws.foldl (fun acc kv => if kv.2 = i then some kv.1 else acc) acc = some t := by
  intro ws
  induction ws with
  | nil =>
    intro acc h _
    rcases h with h | h
    · cases h
    · exact h
  | cons kv ws ih =>
    intro acc h huniq
    simp only [List.foldl_cons]
    apply ih
    · by_cases hkv : kv.2 = i
      · right
        rw [if_pos hkv, huniq kv (List.mem_cons_self kv ws) hkv]
      · rcases h with h | h
        · rcases List.mem_cons.mp h with h' | h'
          · exfalso; rw [← h'] at hkv; exact hkv rfl
          · left; exact h'
        · right; rw [if_neg hkv]; exact h
    · exact fun p hp => huniq p (List.mem_cons_of_mem kv hp)

theorem id_to_word_eq_some {ws : List (Token × Nat)} {t : Token} {i : Nat}
    (hmem : (t, i) ∈ ws) (huniq : ∀ p ∈ ws, p.2 = i → p.1 = t) :
    id_to_word ws i = some t :=
  foldl_overwrite_last i t ws none (Or.inl hmem) huniq

theorem id_to_word_eq_none {ws : List (Token × Nat)} {i : Nat}
    (h : ∀ p ∈ ws, p.2 ≠ i) : id_to_word ws i = none :=
  foldl_overwrite_skip i ws none h

theorem id_to_word_append_last (ws₁ ws₂ : List (Token × Nat)) (t : Token) (i : Nat)
    (h : ∀ p ∈ ws₂, p.2 ≠ i) :
    id_to_word (ws₁ ++ (t, i) :: ws₂) i = some t := by
  unfold id_to_word
  rw [List.foldl_append]
  simp only [List.foldl_cons, if_true]
  exact foldl_overwrite_skip i ws₂ (some t) h

/-! ### word_dict and restore lemmas -/

theorem word_dict_roundtrip {toks : List Token} {t : Token} {i : Nat}
    (h : lookupTok (word_dict toks) t = some i) :
    id_to_word (word_dict toks) i = some t := by
  have hmem := lookupTok_mem h
  have hpw := assignIds_pairwise (qualifies toks) (sorted_tokens toks) 0
  exact id_to_word_eq_some hmem (pairwise_val_unique _ hpw t i hmem)

theorem restoreTokens_map_encEntry {W : List (Token × Nat)}
    (hW : ∀ (t : Token) (i : Nat), lookupTok W t = some i → id_to_word W i = some t) :
    ∀ ts : List Token, restoreTokens W (ts.map (encEntry W)) = Except.ok ts := by
  intro ts
  induction ts with
  | nil => rfl
  | cons t ts ih =>
    simp only [List.map_cons]
    cases hl : lookupTok W t with
    | none =>
      rw [show encEntry W t = DataEntry.lit t by unfold encEntry; rw [hl]]
      simp [restoreTokens, ih]
    | some i =>
      rw [show encEntry W t = DataEntry.id i by unfold encEntry; rw [hl]]
      have h2 := hW t i hl
      simp [restoreTokens, h2, ih]

theorem restoreTokens_err {ws : List (Token × Nat)} {i : Nat} :
    ∀ d : List DataEntry, DataEntry.id i ∈ d → id_to_word ws i = none →
      ∃ e, restoreTokens ws d = Except.error e := by
  intro d
  induction d with
  | nil => intro h _; cases h
  | cons entry d ih =>
    intro hmem hnone
    match entry with
    | DataEntry.id k =>
      cases hk : id_to_word ws k with
      | none => exact ⟨DecodeError.keyError k, by simp [restoreTokens, hk]⟩
      | some w =>
        have hd : DataEntry.id i ∈ d := by
          rcases List.mem_cons.mp hmem with h | h
          · exfalso
            injection h with h'
            subst h'
            rw [hnone] at hk
            cases hk
          · exact h
        rcases ih hd hnone with ⟨e, he⟩
        exact ⟨e, by simp [restoreTokens, hk, he]⟩
    | DataEntry.lit s =>
      have hd : DataEntry.id i ∈ d := by
        rcases List.mem_cons.mp hmem with h | h
        · simp at h
        · exact h
      rcases ih hd hnone with ⟨e, he⟩
      exact ⟨e, by simp [restoreTokens, he]⟩

theorem lookupTok_word_dict_isSome (toks : List Token) (t : Token) (ht : t ∈ toks) :
    (lookupTok (word_dict toks) t).isSome = true ↔
      (1 < List.count t toks ∨ 3 < t.length) := by
  unfold word_dict
  rw [lookupTok_assignIds_isSome, mem_sorted_tokens]
  unfold qualifies
  simp [ht]

theorem assignIds_lookup_lt (q : Token → Bool) {x y : Token} :
    ∀ (ts : List Token) (n : Nat) {i j : Nat}, ts.Nodup →
      List.Sublist [x, y] ts →
      lookupTok (assignIds q ts n) x = some i →
      lookupTok (assignIds q ts n) y = some j → i < j := by
  intro ts
  induction ts with
  | nil =>
    intro n i j _ hsub
    rw [List.sublist_nil] at hsub
    cases hsub
  | cons a ts ih =>
    intro n i j hnd hsub hx hy
    have hnd' : ts.Nodup := (List.nodup_cons.mp hnd).2
    have ha : a ∉ ts := (List.nodup_cons.mp hnd).1
    cases hsub with
    | cons _ hsub' =>
      have hxts : x ∈ ts := hsub'.subset (by simp)
      have hyts : y ∈ ts := hsub'.subset (by simp)
      have hxa : ¬(a = x) := fun h => ha (h ▸ hxts)
      have hya : ¬(a = y) := fun h => ha (h ▸ hyts)
      unfold assignIds at hx hy
      by_cases hq : q a = true
      · rw [if_pos hq, lookupTok_cons_ne hxa] at hx
        rw [if_pos hq, lookupTok_cons_ne hya] at hy
        exact ih (n + 1) hnd' hsub' hx hy
      · rw [if_neg hq] at hx hy
        exact ih (n + 1) hnd' hsub' hx hy
    | cons₂ _ hsub' =>
      have hyts : y ∈ ts := List.singleton_sublist.mp hsub'
      have hyx : ¬(x = y) := fun h => ha (h ▸ hyts)
      unfold assignIds at hx hy
      by_cases hq : q x = true
      · rw [if_pos hq, lookupTok_cons_self] at hx
        rw [if_pos hq, lookupTok_cons_ne hyx] at hy
        have hi : i = n + 1 := by injection hx with hx'; exact hx'.symm
        have hmem := lookupTok_mem hy
        have := assignIds_mem_lt q ts (n + 1) hmem
        simp only at this
        omega
      · rw [if_neg hq] at hx
        exfalso
        exact ha (assignIds_key_mem q ts (n + 1) (lookupTok_mem hx))

/-! ### Claim theorems -/

/-- C1.  Round-trip law: for every text `T` (the empty string,
pure-whitespace, single-character and all-short-single-occurrence texts
included, since `T` is arbitrary) and every extension string, decoding
the record produced by encoding `T` yields exactly `T` and returns the
same extension. -/
theorem c1_round_trip (text ext : List Char) :
    decompress_file (compress_file text ext) = Except.ok (text, ext) := by
  have hres : restoreTokens (word_dict (tokenize text)) (data_ids (tokenize text)) =
      Except.ok (tokenize text) :=
    restoreTokens_map_encEntry (fun _ _ h => word_dict_roundtrip h) (tokenize text)
  unfold decompress_file compress_file
  simp only [hres]
  simp [tokenize_flatten, defaultExtension]

/-- C2 counterexample.  For `T = "the cat sat on the mat the cat ran"`,
the `words` mapping of the record is not `{"the": 1, "cat": 2}`: the
whitespace run `" "` is itself a token with frequency 8, so it ranks
first and is a dictionary key with identifier 1, and `"the"` receives
identifier 2, not 1. -/
theorem c2_counterexample :
    lookupTok (compress_file "the cat sat on the mat the cat ran".toList ".txt".toList).words
        [' '] = some 1 ∧
      lookupTok (compress_file "the cat sat on the mat the cat ran".toList ".txt".toList).words
        "the".toList = some 2 :=
  ⟨rfl, rfl⟩

/-- C2 amended.  For `T = "the cat sat on the mat the cat ran"` the
record's `words` mapping is exactly `{" ": 1, "the": 2, "cat": 3}` (the
space run has frequency 8 and ranks first; `"sat"`, `"on"`, `"mat"`,
`"ran"` appear only as literals in `data`), `data` alternates the
identifiers 2/3 for the words and 1 for the separating spaces with the
literal words, reproducing the sentence, and decoding reproduces the
text exactly. -/
theorem c2_amended_concrete :
    compress_file "the cat sat on the mat the cat ran".toList ".txt".toList =
      { extension := some ".txt".toList,
        words := [([' '], 1), ("the".toList, 2), ("cat".toList, 3)],
        data := [DataEntry.id 2, DataEntry.id 1, DataEntry.id 3, DataEntry.id 1,
          DataEntry.lit "sat".toList, DataEntry.id 1, DataEntry.lit "on".toList, DataEntry.id 1,
          DataEntry.id 2, DataEntry.id 1, DataEntry.lit "mat".toList, DataEntry.id 1,
          DataEntry.id 2, DataEntry.id 1, DataEntry.id 3, DataEntry.id 1,
          DataEntry.lit "ran".toList] } ∧
      decompress_file (compress_file "the cat sat on the mat the cat ran".toList ".txt".toList) =
        Except.ok ("the cat sat on the mat the cat ran".toList, ".txt".toList) :=
  ⟨rfl, rfl⟩

/-- C3.  Inclusion predicate: a token value occurring in the text is a
key of the record's `words` mapping iff its occurrence count over the
token sequence exceeds 1 or its length exceeds 3; a token failing both
conditions appears in `data` as a literal at each of its positions. -/
theorem c3_inclusion_predicate (text ext : List Char) (t : Token) (i : Nat)
    (ht : t ∈ tokenize text) :
    ((lookupTok (compress_file text ext).words t).isSome = true ↔
        (1 < List.count t (tokenize text) ∨ 3 < t.length)) ∧
      (¬(1 < List.count t (tokenize text) ∨ 3 < t.length) →
        (tokenize text)[i]? = some t →
        (compress_file text ext).data[i]? = some (DataEntry.lit t)) := by
  constructor
  · exact lookupTok_word_dict_isSome (tokenize text) t ht
  · intro hfail hi
    have hnone : lookupTok (word_dict (tokenize text)) t = none := by
      cases hl : lookupTok (word_dict (tokenize text)) t with
      | none => rfl
      | some k =>
        exact absurd ((lookupTok_word_dict_isSome (tokenize text) t ht).mp
          (by rw [hl]; rfl)) hfail
    show (data_ids (tokenize text))[i]? = some (DataEntry.lit t)
    unfold data_ids
    rw [List.getElem?_map, hi]
    simp [encEntry, hnone]

/-- C3 witness at `T = "ab cd ab"`, token `"cd"` (count 1, length 2),
position 2. -/
theorem c3_witness :
    ((lookupTok (compress_file "ab cd ab".toList ".txt".toList).words "cd".toList).isSome = true ↔
        (1 < List.count "cd".toList (tokenize "ab cd ab".toList) ∨
          3 < ("cd".toList).length)) ∧
      (compress_file "ab cd ab".toList ".txt".toList).data[2]? =
        some (DataEntry.lit "cd".toList) :=
  ⟨(c3_inclusion_predicate "ab cd ab".toList ".txt".toList "cd".toList 2 (by decide)).1,
   (c3_inclusion_predicate "ab cd ab".toList ".txt".toList "cd".toList 2 (by decide)).2
      (by decide) (by decide)⟩

/-- C4 counterexample.  Decode does not fail on a record whose `words`
has two distinct keys with the same identifier: on
`words = {"a": 1, "b": 1}`, `data = [1]` it succeeds and returns `"b"`. -/
theorem c4_counterexample :
    decompress_file ⟨some ".txt".toList, [("a".toList, 1), ("b".toList, 1)], [DataEntry.id 1]⟩ =
      Except.ok ("b".toList, ".txt".toList) :=
  rfl

/-- C4 amended.  Decode performs no duplicate-identifier validation:
the reverse mapping `{v: k for k, v in words.items()}` lets a later
binding overwrite an earlier one, so an identifier shared by several
keys silently resolves to the last key in the mapping bearing it, and
decode succeeds. -/
theorem c4_amended_last_wins (ext : Option (List Char)) (ws₁ ws₂ : List (Token × Nat))
    (t : Token) (i : Nat) (h : ∀ p ∈ ws₂, p.2 ≠ i) :
    decompress_file ⟨ext, ws₁ ++ (t, i) :: ws₂, [DataEntry.id i]⟩ =
      Except.ok (t, ext.getD defaultExtension) := by
  have hres : restoreTokens (ws₁ ++ (t, i) :: ws₂) [DataEntry.id i] = Except.ok [t] := by
    simp [restoreTokens, id_to_word_append_last ws₁ ws₂ t i h]
  unfold decompress_file
  simp [hres]

/-- C4 amended witness: `words = {"x": 1, "y": 1}` decodes id 1 to the
last-listed key `"y"`. -/
theorem c4_amended_witness :
    decompress_file ⟨some ".txt".toList, [("x".toList, 1), ("y".toList, 1)], [DataEntry.id 1]⟩ =
      Except.ok ("y".toList, ".txt".toList) := by
  have h := c4_amended_last_wins (some ".txt".toList) [("x".toList, 1)] [] "y".toList 1
    (by simp)
  simpa [defaultExtension] using h

/-- C5.  Unknown identifier rejection: when `data` contains an
identifier that is no value of `words`, the whole decode fails (with
`DecodeError.keyError`, the embedding of the `KeyError` that the spec
labels `DecodeMalformedRecordError`) and produces no text at all. -/
theorem c5_unknown_id_rejected (r : CompressedData) (i : Nat)
    (hmem : DataEntry.id i ∈ r.data) (hno : ∀ p ∈ r.words, p.2 ≠ i) :
    (decompress_file r).toOption = none := by
  rcases restoreTokens_err r.data hmem (id_to_word_eq_none hno) with ⟨e, he⟩
  unfold decompress_file
  rw [he]
  rfl

/-- C5 witness: `words = {"the": 1}`, `data = [7]`. -/
theorem c5_witness :
    (decompress_file ⟨some ".txt".toList, [("the".toList, 1)], [DataEntry.id 7]⟩).toOption =
      none :=
  c5_unknown_id_rejected ⟨some ".txt".toList, [("the".toList, 1)], [DataEntry.id 7]⟩ 7
    (by decide) (by decide)

/-- C6.  Identifier uniqueness and range: the values of the record's
`words` mapping are pairwise distinct positive integers, each at most
`N`, the number of distinct token values of the tokenized input. -/
theorem c6_identifier_uniqueness (text ext : List Char) (p : Token × Nat)
    (hp : p ∈ (compress_file text ext).words) :
    distinctIds (compress_file text ext).words ∧
      1 ≤ p.2 ∧ p.2 ≤ (freqKeys (tokenize text)).length := by
  have hpw := assignIds_pairwise (qualifies (tokenize text)) (sorted_tokens (tokenize text)) 0
  refine ⟨List.Pairwise.imp (fun h => Nat.ne_of_lt h) hpw, ?_, ?_⟩
  · exact assignIds_mem_lt (qualifies (tokenize text)) (sorted_tokens (tokenize text)) 0 hp
  · have h2 := assignIds_mem_le (qualifies (tokenize text)) (sorted_tokens (tokenize text)) 0 hp
    rw [Nat.zero_add, sorted_tokens_length] at h2
    exact h2

/-- C6 witness at `T = "a a"`, dictionary entry `("a", 1)`. -/
theorem c6_witness :
    distinctIds (compress_file "a a".toList ".txt".toList).words ∧
      1 ≤ 1 ∧ 1 ≤ (freqKeys (tokenize "a a".toList)).length :=
  c6_identifier_uniqueness "a a".toList ".txt".toList ("a".toList, 1) (by decide)

/-- C7.  Encode determinism: encoding equal texts produces identical
records, with the same `words` mapping and the same `data` sequence.
The embedding fixes the iteration orders the Python relies on —
insertion order for dict iteration, stability for `sorted` — so the
record is a function of the input text alone. -/
theorem c7_encode_deterministic (t₁ t₂ ext : List Char) (h : t₁ = t₂) :
    compress_file t₁ ext = compress_file t₂ ext ∧
      (compress_file t₁ ext).words = (compress_file t₂ ext).words ∧
      (compress_file t₁ ext).data = (compress_file t₂ ext).data := by
  subst h
  exact ⟨rfl, rfl, rfl⟩

/-- C7 witness. -/
theorem c7_witness :
    compress_file "a a".toList ".txt".toList = compress_file "a a".toList ".txt".toList ∧
      (compress_file "a a".toList ".txt".toList).words =
        (compress_file "a a".toList ".txt".toList).words ∧
      (compress_file "a a".toList ".txt".toList).data =
        (compress_file "a a".toList ".txt".toList).data :=
  c7_encode_deterministic "a a".toList "a a".toList ".txt".toList rfl

/-- C8.  Tokenizer concatenation invariant: concatenating, in order, the
token sequence produced by the tokenizer reproduces the input text
exactly — for every input, including leading/trailing whitespace,
control characters and the empty text, with no character loss. -/
theorem c8_tokenize_concat (s : List Char) : (tokenize s).flatten = s :=
  tokenize_flatten s

/-- C9 (implicit).  First-occurrence tie-break: distinct tokens `x`, `y`
with equal frequency and equal length keep their first-occurrence order
(`[x, y]` a sublist of `freqKeys`, the distinct tokens in
first-occurrence order) in the ranked list `sorted_tokens`, because a
stable sort is applied to the dict keys; consequently the identifiers
assigned to them, when both are dictionary keys, are ordered the same
way. -/
theorem c9_stable_tie_break (text : List Char) (x y : Token) (i j : Nat)
    (_hne : x ≠ y)
    (hf : List.count x (tokenize text) = List.count y (tokenize text))
    (hl : x.length = y.length)
    (hfirst : List.Sublist [x, y] (freqKeys (tokenize text))) :
    List.Sublist [x, y] (sorted_tokens (tokenize text)) ∧
      (lookupTok (word_dict (tokenize text)) x = some i →
        lookupTok (word_dict (tokenize text)) y = some j → i < j) := by
  have hle : tokLE (tokenize text) x y := Or.inr ⟨hf, le_of_eq hl⟩
  have hsorted : List.Sublist [x, y] (sorted_tokens (tokenize text)) :=
    List.pair_sublist_insertionSort hle hfirst
  refine ⟨hsorted, fun hx hy => ?_⟩
  exact assignIds_lookup_lt (qualifies (tokenize text)) (sorted_tokens (tokenize text)) 0
    (sorted_tokens_nodup (tokenize text)) hsorted hx hy

/-- C9 witness at `T = "aaaa bbbb"`: both tokens have frequency 1 and
length 4; `"aaaa"` occurs first and receives identifier 2, `"bbbb"`
identifier 3. -/
theorem c9_witness :
    List.Sublist ["aaaa".toList, "bbbb".toList] (sorted_tokens (tokenize "aaaa bbbb".toList)) ∧
      2 < 3 :=
  ⟨(c9_stable_tie_break "aaaa bbbb".toList "aaaa".toList "bbbb".toList 2 3 (by decide)
      (by decide) (by decide) (by decide)).1,
   (c9_stable_tie_break "aaaa bbbb".toList "aaaa".toList "bbbb".toList 2 3 (by decide)
      (by decide) (by decide) (by decide)).2 (by decide) (by decide)⟩

/-- C10 (implicit).  A record lacking the `extension` field does not
fail: whenever the same `words` and `data` decode successfully with an
extension present, the extension-less record decodes to the same text
with extension `".txt"`. -/
theorem c10_missing_extension_defaults (ws : List (Token × Nat)) (d : List DataEntry)
    (e text ext' : List Char)
    (h : decompress_file ⟨some e, ws, d⟩ = Except.ok (text, ext')) :
    decompress_file ⟨none, ws, d⟩ = Except.ok (text, defaultExtension) := by
  have h2 : (match restoreTokens ws d with
      | Except.ok ts => (Except.ok (ts.flatten, e) : Except DecodeError (List Char × List Char))
      | Except.error e' => Except.error e') = Except.ok (text, ext') := h
  show (match restoreTokens ws d with
      | Except.ok ts =>
        (Except.ok (ts.flatten, defaultExtension) : Except DecodeError (List Char × List Char))
      | Except.error e' => Except.error e') = Except.ok (text, defaultExtension)
  cases hres : restoreTokens ws d with
  | error er =>
    rw [hres] at h2
    exact Except.noConfusion
      (show (Except.error er : Except DecodeError (List Char × List Char)) =
        Except.ok (text, ext') from h2)
  | ok ts =>
    rw [hres] at h2
    have h3 : (Except.ok (ts.flatten, e) : Except DecodeError (List Char × List Char)) =
        Except.ok (text, ext') := h2
    have h1 : ts.flatten = text := by
      injection h3 with h''
      exact congrArg Prod.fst h''
    show (Except.ok (ts.flatten, defaultExtension) :
        Except DecodeError (List Char × List Char)) = Except.ok (text, defaultExtension)
    rw [h1]

/-- C10 witness: `words = {"aaaa": 1}`, `data = [1, " "]` with no
extension field decodes to `"aaaa "` and extension `".txt"`. -/
theorem c10_witness :
    decompress_file ⟨none, [("aaaa".toList, 1)], [DataEntry.id 1, DataEntry.lit " ".toList]⟩ =
      Except.ok ("aaaa ".toList, defaultExtension) :=
  c10_missing_extension_defaults [("aaaa".toList, 1)]
    [DataEntry.id 1, DataEntry.lit " ".toList] ".md".toList "aaaa ".toList ".md".toList rfl

end FileCompressor
